import Mathlib

/-!
Verification development for the belldog webhook relay.

The definitions below are a shallow embedding of the token lifecycle
engine (internal/service/token.go), the DynamoDB storage adapter
(storage Save / QueryByChannelName / Delete / ScanAll) and the batch
reconciliation pass (internal/handler BatchHandler.handleWithErrorLogging).

Storage model: DynamoDB is a table keyed on (channel_name, version).
We model the table as a list of records; PutItem replaces the record
having the same key when present and appends otherwise; DeleteItem
removes by key with a condition expression on the token field and
fails when nothing was deleted; Query returns the records of one
channel_name sorted ascending by version (ScanIndexForward is true in
the source). Well-formed table states have pairwise distinct keys,
which is structural for DynamoDB; theorems take that as a hypothesis
where it matters.

Randomness and clock are passed as oracles: the token generator is a
function from the call index to an optional string (none models a
crypto/rand failure), and the created_at timestamp is a plain
parameter. Outbound Slack notifications of the batch pass are modelled
as event traces.
-/

namespace Belldog

/-- Persisted credential record, mirroring storage.Record. -/
structure Record where
  channelID : String
  channelName : String
  token : String
  version : Int
  createdAt : String
deriving DecidableEq

/-- DynamoDB table key of a record: partition key channel_name, sort key version. -/
def recordKey (r : Record) : String × Int :=
  (r.channelName, r.version)

/-- The storage state: the rows of the DynamoDB table. -/
abbrev Store := List Record

/-- Well-formedness of a table state: keys are pairwise distinct,
which DynamoDB guarantees structurally. -/
def keysNodup (s : Store) : Prop :=
  (List.map recordKey s).Nodup

instance (s : Store) : Decidable (keysNodup s) :=
  inferInstanceAs (Decidable (List.map recordKey s).Nodup)

/-- PutItem semantics of storage Save: upsert by table key. -/
def putItem (s : Store) (r : Record) : Store :=
  if List.any s (fun q => recordKey q = recordKey r) then
    List.map (fun q => if recordKey q = recordKey r then r else q) s
  else
    s ++ [r]

/-- DeleteItem semantics of storage Delete: delete by the key of the
given record, conditioned on the stored token equalling the given
record's token; an error (none) when nothing was deleted. -/
def deleteItem (s : Store) (r : Record) : Option Store :=
  if List.any s (fun q => recordKey q = recordKey r ∧ q.token = r.token) then
    some (List.filter (fun q => ¬ recordKey q = recordKey r) s)
  else
    none

/-- Insert a record into a list kept ascending by version. -/
def insertSorted (r : Record) : List Record → List Record
  | [] => [r]
  | q :: qs => if r.version ≤ q.version then r :: q :: qs else q :: insertSorted r qs

/-- Sort records ascending by version, as the DynamoDB query with
ScanIndexForward set to true returns them. -/
def sortByVersion (l : List Record) : List Record :=
  List.foldr insertSorted [] l

/-- QueryByChannelName: the records of one channel name, ascending by version. -/
def queryByChannelName (s : Store) (channelName : String) : List Record :=
  sortByVersion (List.filter (fun r => r.channelName = channelName) s)

/-- Number of records stored for one channel name. -/
def countByName (s : Store) (channelName : String) : Nat :=
  (List.filter (fun r => r.channelName = channelName) s).length

/-- Result of VerifyToken, mirroring service.VerifyResult. -/
structure VerifyResult where
  notFound : Bool := false
  unmatch : Bool := false
  channelID : String := ""
  channelName : String := ""
deriving DecidableEq

/-- Result of GenerateAndSaveToken, mirroring service.GenerateResult. -/
structure GenerateResult where
  isGenerated : Bool := false
  token : String := ""
deriving DecidableEq

/-- Result of RegenerateToken, mirroring service.RegenerateResult. -/
structure RegenerateResult where
  noTokenFound : Bool := false
  tooManyToken : Bool := false
  token : String := ""
deriving DecidableEq

/-- Result of RevokeToken, mirroring service.RevokeResult. -/
structure RevokeResult where
  notFound : Bool := false
deriving DecidableEq

/-- Result of RevokeRenamedToken, mirroring service.RevokeRenamedResult. -/
structure RevokeRenamedResult where
  notFound : Bool := false
  channelIDUnmatch : Bool := false
  linkedChannelID : String := ""
deriving DecidableEq

/-- Token generator oracle: the value produced by the i-th call of
generatorImpl.generate in one operation; none models a crypto/rand
read failure. -/
def Gen := Nat → Option String

/-- VerifyToken (token.go): NotFound on an empty query, the first
record whose token equals the given token on a match (hmac.Equal on
strings is string equality), Unmatch otherwise. -/
def verifyToken (s : Store) (channelName : String) (givenToken : String) : VerifyResult :=
  let recs := queryByChannelName s channelName
  if recs = [] then
    { notFound := true }
  else
    match List.find? (fun rec => rec.token = givenToken) recs with
    | some rec => { notFound := false, channelID := rec.channelID, channelName := rec.channelName }
    | none => { unmatch := true }

/-- GenerateAndSaveToken (token.go): return the first queried record's
token when one exists; otherwise generate one token, save it as
version 0 and return it. The overall Option is none when the generator
fails. -/
def generateAndSaveToken (gen : Gen) (s : Store) (channelID : String)
    (channelName : String) (now : String) : Option (GenerateResult × Store) :=
  match queryByChannelName s channelName with
  | rec :: _ => some ({ isGenerated := false, token := rec.token }, s)
  | [] =>
    match gen 0 with
    | none => none
    | some token =>
      let record : Record :=
        { channelID := channelID, channelName := channelName, token := token,
          version := 0, createdAt := now }
      some ({ isGenerated := true, token := token }, putItem s record)

/-- Maximum records per channel name, mirroring maxTokenCount. -/
def maxTokenCount : Nat := 2

/-- Distinguishes the two error exits of generateWithRetry: a
generator (crypto/rand) failure, and exhaustion of the retry budget
with only colliding values. -/
inductive GenError where
  | genFailure
  | exhausted
deriving DecidableEq

/-- Loop body of generateWithRetry: attempt index i, remaining
attempts n; a produced value is accepted when it differs from every
token in recs. -/
def generateWithRetryGo (recs : List Record) (gen : Gen) (i : Nat) : Nat → Except GenError String
  | 0 => Except.error GenError.exhausted
  | n + 1 =>
    match gen i with
    | none => Except.error GenError.genFailure
    | some token =>
      if List.any recs (fun rec => token = rec.token) then
        generateWithRetryGo recs gen (i + 1) n
      else
        Except.ok token

/-- GenerateWithRetry (token.go): up to 4 total attempts (loop index
0 through 3) to produce a token different from every stored token in
recs. -/
def generateWithRetry (recs : List Record) (gen : Gen) : Except GenError String :=
  generateWithRetryGo recs gen 0 4

/-- RegenerateToken (token.go): NoTokenFound on zero records,
TooManyToken on maxTokenCount or more, otherwise generate with retry
and save with version one above the first queried record. -/
def regenerateToken (gen : Gen) (s : Store) (channelID : String)
    (channelName : String) (now : String) : Option (RegenerateResult × Store) :=
  match queryByChannelName s channelName with
  | [] => some ({ noTokenFound := true }, s)
  | latestRec :: rest =>
    if maxTokenCount ≤ (latestRec :: rest).length then
      some ({ tooManyToken := true }, s)
    else
      match generateWithRetry (latestRec :: rest) gen with
      | Except.error _ => none
      | Except.ok token =>
        let record : Record :=
          { channelID := channelID, channelName := channelName, token := token,
            version := latestRec.version + 1, createdAt := now }
        some ({ token := token }, putItem s record)

/-- RevokeToken (token.go): delete the first queried record whose
token equals the given token; NotFound when none exists. The Option is
none when the conditional delete fails. -/
def revokeToken (s : Store) (channelName : String) (givenToken : String) :
    Option (RevokeResult × Store) :=
  let recs := queryByChannelName s channelName
  if recs = [] then
    some ({ notFound := true }, s)
  else
    match List.find? (fun rec => rec.token = givenToken) recs with
    | some rec =>
      match deleteItem s rec with
      | none => none
      | some s2 => some ({ notFound := false }, s2)
    | none => some ({ notFound := true }, s)

/-- RevokeRenamedToken (token.go): on the first queried record whose
token equals the given token, refuse with ChannelIDUnmatch when the
record's stored channel id differs from the caller's, else delete it;
NotFound when no token matches. -/
def revokeRenamedToken (s : Store) (channelID : String) (givenChannelName : String)
    (givenToken : String) : Option (RevokeRenamedResult × Store) :=
  let recs := queryByChannelName s givenChannelName
  if recs = [] then
    some ({ notFound := true }, s)
  else
    match List.find? (fun rec => rec.token = givenToken) recs with
    | some rec =>
      if ¬ rec.channelID = channelID then
        some ({ channelIDUnmatch := true, linkedChannelID := rec.channelID }, s)
      else
        match deleteItem s rec with
        | none => none
        | some s2 => some ({ notFound := false }, s2)
    | none => some ({ notFound := true }, s)

/-- Slack channel as listed by GetAllChannels. -/
structure Channel where
  id : String
  name : String
  isArchived : Bool
deriving DecidableEq

/-- Archive event of the batch pass, mirroring archiveEvent. -/
structure ArchiveEvent where
  record : Record
  slackChannelName : String
deriving DecidableEq

/-- Rename event of the batch pass, mirroring renameEvent. -/
structure RenameEvent where
  channelID : String
  oldName : String
  newName : String
  savedToken : String
deriving DecidableEq

/-- The archive check of handleWithErrorLogging for one record: look
up the first listed channel with the record's channel id; produce an
archive event exactly when that channel is archived. -/
def archiveEventFor (channels : List Channel) (rec : Record) : Option ArchiveEvent :=
  match List.find? (fun c => c.id = rec.channelID) channels with
  | some c => if c.isArchived then some { record := rec, slackChannelName := c.name } else none
  | none => none

/-- All archive events of one batch pass, in scan order. -/
def archivedEvents (olds : List Record) (channels : List Channel) : List ArchiveEvent :=
  List.filterMap (archiveEventFor channels) olds

/-- Whether the archive check marks a record as archived. -/
def isArchivedRec (channels : List Channel) (rec : Record) : Bool :=
  (archiveEventFor channels rec).isSome

/-- The records surviving the archive check, which the migration and
rename checks then run on. -/
def survivors (olds : List Record) (channels : List Channel) : List Record :=
  List.filter (fun rec => ¬ isArchivedRec channels rec) olds

/-- Go map insertion on an association list: overwrite the binding of
the key when present, append otherwise. -/
def mapInsert (m : List (String × Record)) (k : String) (v : Record) :
    List (String × Record) :=
  if List.any m (fun p => p.1 = k) then
    List.map (fun p => if p.1 = k then (k, v) else p) m
  else
    m ++ [(k, v)]

/-- Migration condition of the batch pass: same channel id, same
channel name, different token. -/
def migCond (rec other : Record) : Prop :=
  rec.channelID = other.channelID ∧ rec.channelName = other.channelName ∧ ¬ rec.token = other.token

instance (rec other : Record) : Decidable (migCond rec other) :=
  inferInstanceAs (Decidable (_ ∧ _ ∧ _))

/-- Inner loop of the migration check for a fixed record: fold over
the candidate partners, writing the record under its channel name into
the migrations map whenever the condition holds. -/
def migInner (rec : Record) (m : List (String × Record)) (l : List Record) :
    List (String × Record) :=
  List.foldl
    (fun m2 other => if migCond rec other then mapInsert m2 rec.channelName rec else m2) m l

/-- The migrations map of the batch pass: one binding per channel
name flagged as token-in-migration; one notification pair is sent per
binding. -/
def migrationsOf (recs : List Record) : List (String × Record) :=
  List.foldl (fun m rec => migInner rec m recs) [] recs

/-- The rename events of the batch pass, in emission order: one per
pair of a surviving record and a listed channel with the same id but a
different name. -/
def renamesOf (recs : List Record) (channels : List Channel) : List RenameEvent :=
  List.foldl
    (fun acc rec =>
      acc ++ List.filterMap
        (fun c =>
          if rec.channelID = c.id ∧ ¬ rec.channelName = c.name then
            some { channelID := rec.channelID, oldName := rec.channelName,
                   newName := c.name, savedToken := rec.token }
          else none)
        channels)
    [] recs

/-- Apply the archive deletions of the batch pass in order; none when
one conditional delete fails, which aborts the run. -/
def deleteAll (s : Store) : List ArchiveEvent → Option Store
  | [] => some s
  | e :: es =>
    match deleteItem s e.record with
    | none => none
    | some s2 => deleteAll s2 es

/-- Observable outcome of one batch pass: the archive events (one ops
notification each), the migrations map (one channel-and-ops
notification pair per binding), the rename events (one pair each) and
the table state after the archive deletions. -/
structure BatchResult where
  archiveOps : List ArchiveEvent
  migrationNotifs : List (String × Record)
  renameNotifs : List RenameEvent
  store : Store
deriving DecidableEq

/-- One batch pass of handleWithErrorLogging over a scanned table and
the listed channels: partition off archived records, delete them with
one ops notification each, then compute migration and rename events
from the surviving records. -/
def runBatch (olds : List Record) (channels : List Channel) : Option BatchResult :=
  let archived := archivedEvents olds channels
  let recs := survivors olds channels
  match deleteAll olds archived with
  | none => none
  | some store =>
    some { archiveOps := archived, migrationNotifs := migrationsOf recs,
           renameNotifs := renamesOf recs channels, store := store }

/-- Membership is preserved by sorted insertion. -/
theorem mem_insertSorted (r q : Record) (l : List Record) :
    q ∈ insertSorted r l ↔ q = r ∨ q ∈ l := by
  induction l with
  | nil => simp [insertSorted]
  | cons a t ih =>
    simp only [insertSorted]
    split
    · simp [List.mem_cons]
    · simp only [List.mem_cons, ih]
      tauto

/-- Membership is preserved by sorting. -/
theorem mem_sortByVersion (q : Record) (l : List Record) :
    q ∈ sortByVersion l ↔ q ∈ l := by
  induction l with
  | nil => simp [sortByVersion]
  | cons a t ih =>
    simp only [sortByVersion, List.foldr_cons] at *
    rw [mem_insertSorted, ih, List.mem_cons]

/-- Length is preserved by sorted insertion. -/
theorem length_insertSorted (r : Record) (l : List Record) :
    (insertSorted r l).length = l.length + 1 := by
  induction l with
  | nil => simp [insertSorted]
  | cons a t ih =>
    simp only [insertSorted]
    split
    · simp
    · simp [ih]

/-- Length is preserved by sorting. -/
theorem length_sortByVersion (l : List Record) :
    (sortByVersion l).length = l.length := by
  induction l with
  | nil => rfl
  | cons a t ih => simp [sortByVersion, List.foldr_cons, length_insertSorted] at *; omega

/-- A record is in the query result exactly when it is stored under the queried name. -/
theorem mem_queryByChannelName (s : Store) (name : String) (q : Record) :
    q ∈ queryByChannelName s name ↔ q ∈ s ∧ q.channelName = name := by
  simp [queryByChannelName, mem_sortByVersion, List.mem_filter]

/-- The query result is empty exactly when no record is stored under the name. -/
theorem queryByChannelName_eq_nil (s : Store) (name : String) :
    queryByChannelName s name = [] ↔ ∀ q ∈ s, ¬ q.channelName = name := by
  rw [List.eq_nil_iff_forall_not_mem]
  constructor
  · intro h q hq hn
    exact h q ((mem_queryByChannelName s name q).mpr ⟨hq, hn⟩)
  · intro h q hq
    have := (mem_queryByChannelName s name q).mp hq
    exact h q this.1 this.2

/-- The query result length is the number of records stored under the name. -/
theorem length_queryByChannelName (s : Store) (name : String) :
    (queryByChannelName s name).length = countByName s name := by
  simp [queryByChannelName, countByName, length_sortByVersion]

/-- When no stored record shares the new record's table key, PutItem appends. -/
theorem putItem_of_key_fresh (s : Store) (r : Record)
    (h : ∀ q ∈ s, ¬ recordKey q = recordKey r) : putItem s r = s ++ [r] := by
  have : List.any s (fun q => recordKey q = recordKey r) = false := by
    simp only [List.any_eq_false, decide_eq_true_eq]
    exact h
  simp [putItem, this]

/-- Effect of appending one record on per-name counts. -/
theorem countByName_append_single (s : Store) (r : Record) (n : String) :
    countByName (s ++ [r]) n =
      countByName s n + (if r.channelName = n then 1 else 0) := by
  simp only [countByName, List.filter_append]
  split
  · next h => simp [h]
  · next h => simp [h]

/-- Per-name counts never grow under filtering. -/
theorem countByName_filter_le (s : Store) (p : Record → Bool) (n : String) :
    countByName (List.filter p s) n ≤ countByName s n := by
  simp only [countByName, List.filter_filter, ← List.countP_eq_length_filter]
  apply List.countP_mono_left
  intro a ha hc
  simp only [Bool.and_eq_true] at hc
  exact hc.1

/-- A stored record can always be deleted: the conditional delete
succeeds and removes exactly the rows with its table key. -/
theorem deleteItem_of_mem (s : Store) (r : Record) (h : r ∈ s) :
    deleteItem s r = some (List.filter (fun q => ¬ recordKey q = recordKey r) s) := by
  have : List.any s (fun q => recordKey q = recordKey r ∧ q.token = r.token) = true := by
    simp only [List.any_eq_true, decide_eq_true_eq]
    exact ⟨r, h, rfl, rfl⟩
  simp only [deleteItem, this]
  rfl

/-- Filtering preserves key well-formedness. -/
theorem keysNodup_filter (s : Store) (p : Record → Bool) (h : keysNodup s) :
    keysNodup (List.filter p s) := by
  exact ((List.filter_sublist s).map recordKey).nodup h

/-- In a well-formed table, the rows carrying a stored record's key
are exactly that one row. -/
theorem filter_key_eq_of_keysNodup (s : Store) (r : Record)
    (hWF : keysNodup s) (h : r ∈ s) :
    List.filter (fun q => recordKey q = recordKey r) s = [r] := by
  induction s with
  | nil => cases h
  | cons a t ih =>
    have hWFt : keysNodup t := by
      simpa [keysNodup] using (List.nodup_cons.mp hWF).2
    have hka : recordKey a ∉ List.map recordKey t := by
      simpa [keysNodup] using (List.nodup_cons.mp hWF).1
    rcases List.mem_cons.mp h with rfl | hmem
    · have : List.filter (fun q => recordKey q = recordKey r) t = [] := by
        rw [List.filter_eq_nil_iff]
        intro q hq hkey
        exact hka (by
          simp only [decide_eq_true_eq] at hkey
          rw [← hkey]
          exact List.mem_map_of_mem recordKey hq)
      simp [List.filter_cons, this]
    · have hne : ¬ recordKey a = recordKey r := by
        intro hkey
        exact hka (hkey ▸ List.mem_map_of_mem recordKey hmem)
      simp [List.filter_cons, hne, ih hWFt hmem]

/-- Deleting one stored row from a well-formed table drops the length by one. -/
theorem length_filter_not_key (s : Store) (r : Record)
    (hWF : keysNodup s) (h : r ∈ s) :
    (List.filter (fun q => ¬ recordKey q = recordKey r) s).length + 1 = s.length := by
  have hsplit := List.length_eq_countP_add_countP
    (p := fun q => decide (recordKey q = recordKey r)) (l := s)
  have h1 : List.countP (fun q => decide (recordKey q = recordKey r)) s = 1 := by
    rw [List.countP_eq_length_filter, filter_key_eq_of_keysNodup s r hWF h]
    rfl
  have h2 : List.countP (fun q => ¬ decide (recordKey q = recordKey r)) s =
      (List.filter (fun q => ¬ recordKey q = recordKey r) s).length := by
    rw [List.countP_eq_length_filter]
    apply congrArg
    apply List.filter_congr
    intro q hq
    simp
  omega

/-- The collision test of the retry loop: the candidate token equals
some stored token of the record group. -/
def collidesWith (recs : List Record) (t : String) : Bool :=
  List.any recs (fun rec => t = rec.token)

/-- Unfolding equation of the retry loop body. -/
theorem generateWithRetryGo_succ (recs : List Record) (gen : Gen) (i n : Nat) :
    generateWithRetryGo recs gen i (n + 1) =
      match gen i with
      | none => Except.error GenError.genFailure
      | some token =>
        if collidesWith recs token then generateWithRetryGo recs gen (i + 1) n
        else Except.ok token := rfl

/-- The retry loop consults only the generator calls inside its
attempt window. -/
theorem generateWithRetryGo_congr (recs : List Record) :
    ∀ (n i : Nat) (gen gen2 : Gen), (∀ k, k < n → gen2 (i + k) = gen (i + k)) →
      generateWithRetryGo recs gen2 i n = generateWithRetryGo recs gen i n := by
  intro n
  induction n with
  | zero => intro i gen gen2 h; rfl
  | succ n ih =>
    intro i gen gen2 h
    have h0 : gen2 i = gen i := by
      have := h 0 (Nat.succ_pos n)
      simpa using this
    rw [generateWithRetryGo_succ, generateWithRetryGo_succ, h0]
    cases hgi : gen i with
    | none => rfl
    | some token =>
      simp only
      split
      · apply ih
        intro k hk
        have := h (k + 1) (by omega)
        have hik : i + (k + 1) = i + 1 + k := by omega
        rw [hik] at this
        exact this
      · rfl

/-- Characterization of a successful retry loop run: the result is
the value of the first attempt in the window that does not collide
with a stored token, all earlier attempts colliding. -/
theorem generateWithRetryGo_ok_iff (recs : List Record) (gen : Gen) (f : Nat → String) :
    ∀ (n i : Nat), (∀ k, k < n → gen (i + k) = some (f (i + k))) → ∀ t,
      (generateWithRetryGo recs gen i n = Except.ok t ↔
        ∃ k, k < n ∧ t = f (i + k) ∧ collidesWith recs (f (i + k)) = false ∧
          ∀ j, j < k → collidesWith recs (f (i + j)) = true) := by
  intro n
  induction n with
  | zero =>
    intro i hgen t
    simp [generateWithRetryGo]
  | succ n ih =>
    intro i hgen t
    have h0 : gen i = some (f i) := by
      have := hgen 0 (Nat.succ_pos n)
      simpa using this
    simp only [generateWithRetryGo_succ, h0]
    by_cases hc : collidesWith recs (f i) = true
    · simp only [hc, if_true]
      have hgen2 : ∀ k, k < n → gen (i + 1 + k) = some (f (i + 1 + k)) := by
        intro k hk
        have := hgen (k + 1) (by omega)
        have hik : i + (k + 1) = i + 1 + k := by omega
        rw [hik] at this
        exact this
      rw [ih (i + 1) hgen2 t]
      constructor
      · rintro ⟨k, hk, ht, hfresh, hprior⟩
        refine ⟨k + 1, by omega, ?_, ?_, ?_⟩
        · have hik : i + (k + 1) = i + 1 + k := by omega
          rw [hik]; exact ht
        · have hik : i + (k + 1) = i + 1 + k := by omega
          rw [hik]; exact hfresh
        · intro j hj
          cases j with
          | zero => simpa using hc
          | succ j' =>
            have hik : i + (j' + 1) = i + 1 + j' := by omega
            rw [hik]
            exact hprior j' (by omega)
      · rintro ⟨k, hk, ht, hfresh, hprior⟩
        cases k with
        | zero =>
          exfalso
          simp only [Nat.add_zero] at ht hfresh
          rw [hc] at hfresh
          exact absurd hfresh (by decide)
        | succ k' =>
          refine ⟨k', by omega, ?_, ?_, ?_⟩
          · have hik : i + (k' + 1) = i + 1 + k' := by omega
            rw [hik] at ht; exact ht
          · have hik : i + (k' + 1) = i + 1 + k' := by omega
            rw [hik] at hfresh; exact hfresh
          · intro j hj
            have hik : i + (j + 1) = i + 1 + j := by omega
            rw [← hik]
            exact hprior (j + 1) (by omega)
    · have hfresh0 : collidesWith recs (f i) = false := by
        simpa using hc
      simp only [hfresh0, Bool.false_eq_true, if_false]
      constructor
      · intro h
        have ht : t = f i := by
          cases h
          rfl
        refine ⟨0, Nat.succ_pos n, ?_, ?_, by omega⟩
        · simpa using ht
        · simpa using hfresh0
      · rintro ⟨k, hk, ht, hfr, hprior⟩
        cases k with
        | zero =>
          simp only [Nat.add_zero] at ht
          rw [ht]
        | succ k' =>
          exfalso
          have := hprior 0 (by omega)
          simp only [Nat.add_zero] at this
          rw [this] at hfresh0
          exact absurd hfresh0 (by decide)

/-- Characterization of a failing retry loop run: under a total
generator the loop fails exactly when every attempt of the window
collides, and then the failure is exhaustion of the budget. -/
theorem generateWithRetryGo_error_iff (recs : List Record) (gen : Gen) (f : Nat → String) :
    ∀ (n i : Nat), (∀ k, k < n → gen (i + k) = some (f (i + k))) → ∀ e,
      (generateWithRetryGo recs gen i n = Except.error e ↔
        e = GenError.exhausted ∧ ∀ k, k < n → collidesWith recs (f (i + k)) = true) := by
  intro n
  induction n with
  | zero =>
    intro i hgen e
    simp only [generateWithRetryGo]
    constructor
    · intro h
      cases h
      exact ⟨rfl, by omega⟩
    · rintro ⟨rfl, h⟩
      rfl
  | succ n ih =>
    intro i hgen e
    have h0 : gen i = some (f i) := by
      have := hgen 0 (Nat.succ_pos n)
      simpa using this
    simp only [generateWithRetryGo_succ, h0]
    by_cases hc : collidesWith recs (f i) = true
    · simp only [hc, if_true]
      have hgen2 : ∀ k, k < n → gen (i + 1 + k) = some (f (i + 1 + k)) := by
        intro k hk
        have := hgen (k + 1) (by omega)
        have hik : i + (k + 1) = i + 1 + k := by omega
        rw [hik] at this
        exact this
      rw [ih (i + 1) hgen2 e]
      constructor
      · rintro ⟨rfl, h⟩
        refine ⟨rfl, ?_⟩
        intro k hk
        cases k with
        | zero => simpa using hc
        | succ k' =>
          have hik : i + (k' + 1) = i + 1 + k' := by omega
          rw [hik]
          exact h k' (by omega)
      · rintro ⟨rfl, h⟩
        refine ⟨rfl, ?_⟩
        intro k hk
        have hik : i + (k + 1) = i + 1 + k := by omega
        rw [← hik]
        exact h (k + 1) (by omega)
    · have hfresh0 : collidesWith recs (f i) = false := by
        simpa using hc
      simp only [hfresh0, Bool.false_eq_true, if_false]
      constructor
      · intro h
        cases h
      · rintro ⟨rfl, h⟩
        exfalso
        have := h 0 (by omega)
        simp only [Nat.add_zero] at this
        rw [this] at hfresh0
        exact absurd hfresh0 (by decide)

/-- Elements of a map after insertion come from the map or are the
inserted binding. -/
theorem mapInsert_mem (m : List (String × Record)) (k : String) (v : Record)
    (p : String × Record) (h : p ∈ mapInsert m k v) : p ∈ m ∨ p = (k, v) := by
  unfold mapInsert at h
  split at h
  · rcases List.mem_map.mp h with ⟨q, hq, hfq⟩
    by_cases hk : q.1 = k
    · right
      rw [← hfq]
      simp [hk]
    · left
      rw [← hfq]
      simpa [hk] using hq
  · rcases List.mem_append.mp h with hm | hs
    · exact Or.inl hm
    · exact Or.inr (by simpa using hs)

/-- A key is bound after insertion exactly when it was bound before or
is the inserted key. -/
theorem mapInsert_key_mem (m : List (String × Record)) (k : String) (v : Record)
    (n : String) :
    (∃ p ∈ mapInsert m k v, p.1 = n) ↔ (∃ p ∈ m, p.1 = n) ∨ n = k := by
  constructor
  · rintro ⟨p, hp, hn⟩
    rcases mapInsert_mem m k v p hp with hm | rfl
    · exact Or.inl ⟨p, hm, hn⟩
    · exact Or.inr hn.symm
  · intro h
    by_cases hk : n = k
    · subst hk
      unfold mapInsert
      split
      · next hany =>
        rcases List.any_eq_true.mp hany with ⟨q, hq, hqk⟩
        simp only [decide_eq_true_eq] at hqk
        refine ⟨(n, v), List.mem_map.mpr ⟨q, hq, by simp [hqk]⟩, rfl⟩
      · exact ⟨(n, v), List.mem_append.mpr (Or.inr (by simp)), rfl⟩
    · rcases h with ⟨p, hp, hn⟩ | rfl
      · have hpk : ¬ p.1 = k := fun hh => hk (hn ▸ hh)
        unfold mapInsert
        split
        · exact ⟨p, List.mem_map.mpr ⟨p, hp, by simp [hpk]⟩, hn⟩
        · exact ⟨p, List.mem_append.mpr (Or.inl hp), hn⟩
      · exact absurd rfl hk

/-- Map insertion preserves distinctness of the bound keys. -/
theorem mapInsert_keys_nodup (m : List (String × Record)) (k : String) (v : Record)
    (h : (List.map Prod.fst m).Nodup) :
    (List.map Prod.fst (mapInsert m k v)).Nodup := by
  unfold mapInsert
  split
  · have : List.map Prod.fst (List.map (fun p => if p.1 = k then (k, v) else p) m) =
        List.map Prod.fst m := by
      rw [List.map_map]
      apply List.map_congr_left
      intro p hp
      by_cases hk : p.1 = k
      · simp [hk]
      · simp [hk]
    rw [this]
    exact h
  · next hany =>
    have hk : k ∉ List.map Prod.fst m := by
      intro hmem
      rcases List.mem_map.mp hmem with ⟨p, hp, hpk⟩
      have := List.any_eq_false.mp (Bool.eq_false_iff.mpr hany) p hp
      simp only [decide_eq_true_eq] at this
      exact this hpk
    rw [List.map_append]
    rw [List.nodup_append]
    refine ⟨h, by simp, ?_⟩
    intro a ha hb
    simp only [List.map_cons, List.map_nil, List.mem_cons, List.not_mem_nil, or_false] at hb
    subst hb
    exact hk ha

/-- Elements reachable by the inner migration fold. -/
theorem migInner_mem (rec : Record) :
    ∀ (l : List Record) (m : List (String × Record)) (p : String × Record),
      p ∈ migInner rec m l → p ∈ m ∨ p = (rec.channelName, rec) := by
  intro l
  induction l with
  | nil => intro m p h; exact Or.inl h
  | cons a t ih =>
    intro m p h
    simp only [migInner, List.foldl_cons] at h
    rcases ih _ p h with hm | hp
    · split at hm
      · rcases mapInsert_mem _ _ _ p hm with h1 | h2
        · exact Or.inl h1
        · exact Or.inr h2
      · exact Or.inl hm
    · exact Or.inr hp

/-- Keys bound by the inner migration fold: the prior keys, plus the
fixed record's channel name when some partner satisfies the migration
condition. -/
theorem migInner_key_mem (rec : Record) :
    ∀ (l : List Record) (m : List (String × Record)) (n : String),
      (∃ p ∈ migInner rec m l, p.1 = n) ↔
        (∃ p ∈ m, p.1 = n) ∨ (n = rec.channelName ∧ ∃ other ∈ l, migCond rec other) := by
  intro l
  induction l with
  | nil => intro m n; simp [migInner]
  | cons a t ih =>
    intro m n
    simp only [migInner, List.foldl_cons]
    rw [show List.foldl
        (fun m2 other => if migCond rec other then mapInsert m2 rec.channelName rec else m2)
        (if migCond rec a then mapInsert m rec.channelName rec else m) t =
      migInner rec (if migCond rec a then mapInsert m rec.channelName rec else m) t from rfl]
    rw [ih]
    by_cases hcond : migCond rec a
    · simp only [hcond, if_true]
      rw [mapInsert_key_mem]
      constructor
      · rintro ((hm | hn) | ⟨hn, other, hmem, hc⟩)
        · exact Or.inl hm
        · exact Or.inr ⟨hn, a, List.mem_cons_self a t, hcond⟩
        · exact Or.inr ⟨hn, other, List.mem_cons_of_mem a hmem, hc⟩
      · rintro (hm | ⟨hn, other, hmem, hc⟩)
        · exact Or.inl (Or.inl hm)
        · exact Or.inl (Or.inr hn)
    · simp only [hcond, if_false]
      constructor
      · rintro (hm | ⟨hn, other, hmem, hc⟩)
        · exact Or.inl hm
        · exact Or.inr ⟨hn, other, List.mem_cons_of_mem a hmem, hc⟩
      · rintro (hm | ⟨hn, other, hmem, hc⟩)
        · exact Or.inl hm
        · rcases List.mem_cons.mp hmem with rfl | hmem2
          · exact absurd hc hcond
          · exact Or.inr ⟨hn, other, hmem2, hc⟩

/-- The inner migration fold preserves distinctness of the bound keys. -/
theorem migInner_keys_nodup (rec : Record) :
    ∀ (l : List Record) (m : List (String × Record)),
      (List.map Prod.fst m).Nodup → (List.map Prod.fst (migInner rec m l)).Nodup := by
  intro l
  induction l with
  | nil => intro m h; exact h
  | cons a t ih =>
    intro m h
    simp only [migInner, List.foldl_cons]
    apply ih
    split
    · exact mapInsert_keys_nodup m rec.channelName rec h
    · exact h

/-- Elements reachable by the outer migration fold. -/
theorem migFold_mem (recs : List Record) :
    ∀ (l : List Record) (m : List (String × Record)) (p : String × Record),
      p ∈ List.foldl (fun m rec => migInner rec m recs) m l →
        p ∈ m ∨ ∃ r ∈ l, p = (r.channelName, r) := by
  intro l
  induction l with
  | nil => intro m p h; exact Or.inl h
  | cons a t ih =>
    intro m p h
    simp only [List.foldl_cons] at h
    rcases ih _ p h with hm | ⟨r, hr, hp⟩
    · rcases migInner_mem a recs m p hm with h1 | h2
      · exact Or.inl h1
      · exact Or.inr ⟨a, List.mem_cons_self a t, h2⟩
    · exact Or.inr ⟨r, List.mem_cons_of_mem a hr, hp⟩

/-- Keys bound by the outer migration fold. -/
theorem migFold_key_mem (recs : List Record) :
    ∀ (l : List Record) (m : List (String × Record)) (n : String),
      (∃ p ∈ List.foldl (fun m rec => migInner rec m recs) m l, p.1 = n) ↔
        (∃ p ∈ m, p.1 = n) ∨
          ∃ r ∈ l, n = r.channelName ∧ ∃ other ∈ recs, migCond r other := by
  intro l
  induction l with
  | nil => intro m n; simp
  | cons a t ih =>
    intro m n
    simp only [List.foldl_cons]
    rw [ih, migInner_key_mem]
    constructor
    · rintro ((hm | ⟨hn, other, ho, hc⟩) | ⟨r, hr, hn, w⟩)
      · exact Or.inl hm
      · exact Or.inr ⟨a, List.mem_cons_self a t, hn, other, ho, hc⟩
      · exact Or.inr ⟨r, List.mem_cons_of_mem a hr, hn, w⟩
    · rintro (hm | ⟨r, hr, hn, w⟩)
      · exact Or.inl (Or.inl hm)
      · rcases List.mem_cons.mp hr with rfl | hr2
        · exact Or.inl (Or.inr ⟨hn, w⟩)
        · exact Or.inr ⟨r, hr2, hn, w⟩

/-- The outer migration fold preserves distinctness of the bound keys. -/
theorem migFold_keys_nodup (recs : List Record) :
    ∀ (l : List Record) (m : List (String × Record)),
      (List.map Prod.fst m).Nodup →
        (List.map Prod.fst (List.foldl (fun m rec => migInner rec m recs) m l)).Nodup := by
  intro l
  induction l with
  | nil => intro m h; exact h
  | cons a t ih =>
    intro m h
    simp only [List.foldl_cons]
    exact ih _ (migInner_keys_nodup a recs m h)

/-- Every binding of the migrations map binds a processed record under
its channel name. -/
theorem migrationsOf_mem (recs : List Record) (p : String × Record)
    (h : p ∈ migrationsOf recs) : ∃ r ∈ recs, p = (r.channelName, r) := by
  rcases migFold_mem recs recs [] p h with hm | hr
  · cases hm
  · exact hr

/-- A channel name is bound in the migrations map exactly when two
processed records share its name and channel id but differ in token. -/
theorem migrationsOf_key_mem (recs : List Record) (n : String) :
    (∃ p ∈ migrationsOf recs, p.1 = n) ↔
      ∃ r ∈ recs, n = r.channelName ∧ ∃ other ∈ recs, migCond r other := by
  rw [show migrationsOf recs = List.foldl (fun m rec => migInner rec m recs) [] recs from rfl,
    migFold_key_mem]
  simp

/-- The migrations map binds each channel name at most once. -/
theorem migrationsOf_keys_nodup (recs : List Record) :
    (List.map Prod.fst (migrationsOf recs)).Nodup :=
  migFold_keys_nodup recs recs [] (by simp)

/-- Membership in the rename event list. -/
theorem renamesOf_mem (recs : List Record) (channels : List Channel) (e : RenameEvent) :
    e ∈ renamesOf recs channels ↔
      ∃ r ∈ recs, ∃ c ∈ channels, r.channelID = c.id ∧ ¬ r.channelName = c.name ∧
        e = { channelID := r.channelID, oldName := r.channelName,
              newName := c.name, savedToken := r.token } := by
  have aux : ∀ (l : List Record) (acc : List RenameEvent),
      e ∈ List.foldl
        (fun acc rec =>
          acc ++ List.filterMap
            (fun c =>
              if rec.channelID = c.id ∧ ¬ rec.channelName = c.name then
                some { channelID := rec.channelID, oldName := rec.channelName,
                       newName := c.name, savedToken := rec.token }
              else none)
            channels)
        acc l ↔
      e ∈ acc ∨ ∃ r ∈ l, ∃ c ∈ channels, r.channelID = c.id ∧ ¬ r.channelName = c.name ∧
        e = { channelID := r.channelID, oldName := r.channelName,
              newName := c.name, savedToken := r.token } := by
    intro l
    induction l with
    | nil => intro acc; simp
    | cons a t ih =>
      intro acc
      simp only [List.foldl_cons]
      rw [ih]
      constructor
      · rintro (hacc | w)
        · rcases List.mem_append.mp hacc with h1 | h2
          · exact Or.inl h1
          · rcases List.mem_filterMap.mp h2 with ⟨c, hc, hsome⟩
            split at hsome
            · next hcond =>
              refine Or.inr ⟨a, List.mem_cons_self a t, c, hc, hcond.1, hcond.2, ?_⟩
              exact (Option.some.injEq _ _ ▸ hsome).symm
            · cases hsome
        · rcases w with ⟨r, hr, c, hc, h1, h2, h3⟩
          exact Or.inr ⟨r, List.mem_cons_of_mem a hr, c, hc, h1, h2, h3⟩
      · rintro (hacc | ⟨r, hr, c, hc, h1, h2, h3⟩)
        · exact Or.inl (List.mem_append.mpr (Or.inl hacc))
        · rcases List.mem_cons.mp hr with rfl | hr2
          · refine Or.inl (List.mem_append.mpr (Or.inr ?_))
            apply List.mem_filterMap.mpr
            refine ⟨c, hc, ?_⟩
            rw [if_pos ⟨h1, h2⟩, h3]
          · exact Or.inr ⟨r, hr2, c, hc, h1, h2, h3⟩
  rw [show renamesOf recs channels = List.foldl
      (fun acc rec =>
        acc ++ List.filterMap
          (fun c =>
            if rec.channelID = c.id ∧ ¬ rec.channelName = c.name then
              some { channelID := rec.channelID, oldName := rec.channelName,
                     newName := c.name, savedToken := rec.token }
            else none)
          channels)
      [] recs from rfl, aux]
  simp

/-- An archive event records the scanned row it came from. -/
theorem archiveEventFor_record (channels : List Channel) (rec : Record) (e : ArchiveEvent)
    (h : archiveEventFor channels rec = some e) : e.record = rec := by
  unfold archiveEventFor at h
  split at h
  · split at h
    · cases h
      rfl
    · cases h
  · cases h

/-- The archive events are exactly the archived scanned rows, in order. -/
theorem archivedEvents_map_record (olds : List Record) (channels : List Channel) :
    List.map (fun e => e.record) (archivedEvents olds channels) =
      List.filter (fun r => isArchivedRec channels r) olds := by
  induction olds with
  | nil => rfl
  | cons a t ih =>
    simp only [archivedEvents, List.filterMap_cons, List.filter_cons]
    cases h : archiveEventFor channels a with
    | none =>
      have harch : isArchivedRec channels a = false := by
        simp [isArchivedRec, h]
      rw [harch]
      simpa [archivedEvents] using ih
    | some e =>
      have harch : isArchivedRec channels a = true := by
        simp [isArchivedRec, h]
      rw [harch]
      simp only [List.map_cons, if_true]
      rw [archiveEventFor_record channels a e h]
      simpa [archivedEvents] using congrArg (List.cons a) ih

/-- With pairwise distinct listed channel ids, looking up a listed
channel's id finds that channel. -/
theorem find?_channel_of_nodup (channels : List Channel) (c : Channel)
    (hIds : (List.map Channel.id channels).Nodup) (hc : c ∈ channels) :
    List.find? (fun d => d.id = c.id) channels = some c := by
  induction channels with
  | nil => cases hc
  | cons a t ih =>
    have hIdst : (List.map Channel.id t).Nodup := (List.nodup_cons.mp hIds).2
    have hha : a.id ∉ List.map Channel.id t := (List.nodup_cons.mp hIds).1
    rcases List.mem_cons.mp hc with rfl | hmem
    · simp [List.find?_cons]
    · have hne : ¬ a.id = c.id := by
        intro hh
        exact hha (hh ▸ List.mem_map_of_mem Channel.id hmem)
      have hdec : decide (a.id = c.id) = false := by simpa using hne
      simp only [List.find?_cons, hdec]
      exact ih hIdst hmem

/-- With pairwise distinct listed channel ids, a record whose channel
is listed as archived is marked archived with that channel's name. -/
theorem archiveEventFor_of_archived (channels : List Channel) (rec : Record) (c : Channel)
    (hIds : (List.map Channel.id channels).Nodup) (hc : c ∈ channels)
    (hid : c.id = rec.channelID) (harch : c.isArchived = true) :
    archiveEventFor channels rec = some { record := rec, slackChannelName := c.name } := by
  unfold archiveEventFor
  have : List.find? (fun d => d.id = rec.channelID) channels = some c := by
    rw [← hid]
    exact find?_channel_of_nodup channels c hIds hc
  rw [this]
  simp [harch]

/-- Applying a list of archive deletions with pairwise distinct keys
to a well-formed table succeeds and removes exactly the rows keyed by
the deleted records. -/
theorem deleteAll_eq :
    ∀ (es : List ArchiveEvent) (s : Store), keysNodup s → (∀ e ∈ es, e.record ∈ s) →
      (List.map (fun e => recordKey e.record) es).Nodup →
      deleteAll s es =
        some (List.filter
          (fun q => ¬ List.any es (fun e => recordKey e.record = recordKey q)) s) := by
  intro es
  induction es with
  | nil =>
    intro s hWF hmem hkeys
    simp only [deleteAll]
    congr 1
    have h1 : List.filter
        (fun q => ¬ List.any ([] : List ArchiveEvent) (fun e => recordKey e.record = recordKey q)) s =
        List.filter (fun _ => true) s := by
      apply List.filter_congr
      intro q hq
      simp
    rw [h1, List.filter_true]
  | cons e es ih =>
    intro s hWF hmem hkeys
    have hrec : e.record ∈ s := hmem e (List.mem_cons_self e es)
    have hkeyse : recordKey e.record ∉ List.map (fun e2 => recordKey e2.record) es :=
      (List.nodup_cons.mp hkeys).1
    have hkeyst : (List.map (fun e2 => recordKey e2.record) es).Nodup :=
      (List.nodup_cons.mp hkeys).2
    simp only [deleteAll, deleteItem_of_mem s e.record hrec]
    have hWF2 : keysNodup (List.filter (fun q => ¬ recordKey q = recordKey e.record) s) :=
      keysNodup_filter s _ hWF
    have hmem2 : ∀ e2 ∈ es,
        e2.record ∈ List.filter (fun q => ¬ recordKey q = recordKey e.record) s := by
      intro e2 he2
      apply List.mem_filter.mpr
      refine ⟨hmem e2 (List.mem_cons_of_mem e he2), ?_⟩
      simp only [decide_eq_true_eq]
      intro hk
      exact hkeyse (hk ▸ List.mem_map_of_mem (fun e2 => recordKey e2.record) he2)
    rw [ih _ hWF2 hmem2 hkeyst]
    congr 1
    rw [List.filter_filter]
    apply List.filter_congr
    intro q hq
    by_cases h1 : recordKey e.record = recordKey q
    · have h1b : recordKey q = recordKey e.record := h1.symm
      simp [List.any_cons, h1b]
    · have h1b : ¬ recordKey q = recordKey e.record := fun hh => h1 hh.symm
      by_cases h2 : List.any es (fun e2 => recordKey e2.record = recordKey q) = true
      · simp [List.any_cons, h1b, h2]
      · have h2b : List.any es (fun e2 => recordKey e2.record = recordKey q) = false :=
          Bool.eq_false_iff.mpr h2
        simp [List.any_cons, h1, h1b, h2b]

/-- A successful batch pass packages the archive events, the
migrations of the surviving records, the rename events and the table
after the archive deletions. -/
theorem runBatch_eq (olds : List Record) (channels : List Channel) (st : Store)
    (h : deleteAll olds (archivedEvents olds channels) = some st) :
    runBatch olds channels =
      some { archiveOps := archivedEvents olds channels,
             migrationNotifs := migrationsOf (survivors olds channels),
             renameNotifs := renamesOf (survivors olds channels) channels,
             store := st } := by
  simp only [runBatch, h]

/-- Equation of VerifyToken on an empty query. -/
theorem verifyToken_eq_of_nil (s : Store) (name tok : String)
    (hq : queryByChannelName s name = []) :
    verifyToken s name tok = { notFound := true } := by
  simp [verifyToken, hq]

/-- Equation of VerifyToken when the first token hit of the query is found. -/
theorem verifyToken_eq_of_find (s : Store) (name tok : String) (rec : Record)
    (hf : List.find? (fun r => r.token = tok) (queryByChannelName s name) = some rec) :
    verifyToken s name tok =
      { notFound := false, channelID := rec.channelID, channelName := rec.channelName } := by
  have hq : ¬ queryByChannelName s name = [] := by
    intro hnil
    rw [hnil] at hf
    cases hf
  simp [verifyToken, hq, hf]

/-- Equation of VerifyToken when records exist but none carries the token. -/
theorem verifyToken_eq_of_unmatch (s : Store) (name tok : String)
    (hq : ¬ queryByChannelName s name = [])
    (hf : List.find? (fun r => r.token = tok) (queryByChannelName s name) = none) :
    verifyToken s name tok = { unmatch := true } := by
  simp [verifyToken, hq, hf]

/-- The NotFound flag of VerifyToken signals exactly the absence of
records under the queried name. -/
theorem verifyToken_notFound_iff (s : Store) (name tok : String) :
    (verifyToken s name tok).notFound = true ↔ ∀ q ∈ s, ¬ q.channelName = name := by
  rw [← queryByChannelName_eq_nil]
  by_cases hq : queryByChannelName s name = []
  · rw [verifyToken_eq_of_nil s name tok hq]
    simp [hq]
  · cases hf : List.find? (fun r => r.token = tok) (queryByChannelName s name) with
    | some rec =>
      rw [verifyToken_eq_of_find s name tok rec hf]
      simpa using hq
    | none =>
      rw [verifyToken_eq_of_unmatch s name tok hq hf]
      simpa using hq

/-- VerifyToken reports a match exactly when some record under the
name carries the given token. -/
theorem verifyToken_matched_iff (s : Store) (name tok : String) :
    ((verifyToken s name tok).notFound = false ∧ (verifyToken s name tok).unmatch = false) ↔
      ∃ q ∈ s, q.channelName = name ∧ q.token = tok := by
  by_cases hq : queryByChannelName s name = []
  · rw [verifyToken_eq_of_nil s name tok hq]
    simp only [show (({ notFound := true } : VerifyResult)).notFound = true from rfl]
    constructor
    · rintro ⟨h1, h2⟩
      cases h1
    · rintro ⟨q, hmem, hname, htok⟩
      exact absurd hname ((queryByChannelName_eq_nil s name).mp hq q hmem)
  · cases hf : List.find? (fun r => r.token = tok) (queryByChannelName s name) with
    | some rec =>
      rw [verifyToken_eq_of_find s name tok rec hf]
      have hmem := List.mem_of_find?_eq_some hf
      have htok : rec.token = tok := by
        have := List.find?_some hf
        simpa using this
      have hin := (mem_queryByChannelName s name rec).mp hmem
      constructor
      · intro h
        exact ⟨rec, hin.1, hin.2, htok⟩
      · intro h
        exact ⟨rfl, rfl⟩
    | none =>
      rw [verifyToken_eq_of_unmatch s name tok hq hf]
      constructor
      · rintro ⟨h1, h2⟩
        cases h2
      · rintro ⟨q, hmem, hname, htok⟩
        exfalso
        have := List.find?_eq_none.mp hf q ((mem_queryByChannelName s name q).mpr ⟨hmem, hname⟩)
        simp only [decide_eq_true_eq] at this
        exact this htok

/-- On a match, VerifyToken carries the channel id and channel name of
a stored record under the queried name holding the given token. -/
theorem verifyToken_matched_fields (s : Store) (name tok : String)
    (h1 : (verifyToken s name tok).notFound = false)
    (h2 : (verifyToken s name tok).unmatch = false) :
    ∃ q ∈ s, q.channelName = name ∧ q.token = tok ∧
      (verifyToken s name tok).channelID = q.channelID ∧
      (verifyToken s name tok).channelName = q.channelName := by
  by_cases hq : queryByChannelName s name = []
  · rw [verifyToken_eq_of_nil s name tok hq] at h1
    cases h1
  · cases hf : List.find? (fun r => r.token = tok) (queryByChannelName s name) with
    | some rec =>
      rw [verifyToken_eq_of_find s name tok rec hf]
      have hmem := List.mem_of_find?_eq_some hf
      have htok : rec.token = tok := by
        have := List.find?_some hf
        simpa using this
      have hin := (mem_queryByChannelName s name rec).mp hmem
      exact ⟨rec, hin.1, hin.2, htok, rfl, rfl⟩
    | none =>
      rw [verifyToken_eq_of_unmatch s name tok hq hf] at h2
      cases h2

/-- The Unmatch flag of VerifyToken signals exactly that records exist
under the name and none carries the given token. -/
theorem verifyToken_unmatch_iff (s : Store) (name tok : String) :
    (verifyToken s name tok).unmatch = true ↔
      (∃ q ∈ s, q.channelName = name) ∧
        ∀ q ∈ s, q.channelName = name → ¬ q.token = tok := by
  by_cases hq : queryByChannelName s name = []
  · rw [verifyToken_eq_of_nil s name tok hq]
    constructor
    · intro h
      cases h
    · rintro ⟨⟨q, hmem, hname⟩, h⟩
      exact absurd hname ((queryByChannelName_eq_nil s name).mp hq q hmem)
  · have hex : ∃ q ∈ s, q.channelName = name := by
      rcases List.exists_mem_of_ne_nil _ hq with ⟨q, hmem⟩
      have := (mem_queryByChannelName s name q).mp hmem
      exact ⟨q, this.1, this.2⟩
    cases hf : List.find? (fun r => r.token = tok) (queryByChannelName s name) with
    | some rec =>
      rw [verifyToken_eq_of_find s name tok rec hf]
      constructor
      · intro h
        cases h
      · rintro ⟨hexq, h⟩
        exfalso
        have hmem := List.mem_of_find?_eq_some hf
        have htok : rec.token = tok := by
          have := List.find?_some hf
          simpa using this
        have hin := (mem_queryByChannelName s name rec).mp hmem
        exact h rec hin.1 hin.2 htok
    | none =>
      rw [verifyToken_eq_of_unmatch s name tok hq hf]
      constructor
      · intro h
        refine ⟨hex, ?_⟩
        intro q hmem hname htok
        have := List.find?_eq_none.mp hf q ((mem_queryByChannelName s name q).mpr ⟨hmem, hname⟩)
        simp only [decide_eq_true_eq] at this
        exact this htok
      · intro h
        rfl

/-- Case analysis of RevokeToken: either NotFound with the table
unchanged and no record under the name carrying the token, or success
deleting exactly the first query hit. -/
theorem revokeToken_cases (s : Store) (name tok : String) (res : RevokeResult) (s2 : Store)
    (h : revokeToken s name tok = some (res, s2)) :
    (res.notFound = true ∧ s2 = s ∧ ∀ q ∈ s, q.channelName = name → ¬ q.token = tok) ∨
    (res.notFound = false ∧
      ∃ rec, List.find? (fun r => r.token = tok) (queryByChannelName s name) = some rec ∧
        rec ∈ s ∧ rec.channelName = name ∧ rec.token = tok ∧
        s2 = List.filter (fun q => ¬ recordKey q = recordKey rec) s) := by
  unfold revokeToken at h
  by_cases hq : queryByChannelName s name = []
  · rw [if_pos hq] at h
    simp only [Option.some.injEq, Prod.mk.injEq] at h
    obtain ⟨hres, hs2⟩ := h
    left
    refine ⟨by rw [← hres], hs2.symm, ?_⟩
    intro q hmem hname _
    exact (queryByChannelName_eq_nil s name).mp hq q hmem hname
  · rw [if_neg hq] at h
    rcases hf : List.find? (fun r => r.token = tok) (queryByChannelName s name) with _ | rec
    · rw [hf] at h
      simp only [Option.some.injEq, Prod.mk.injEq] at h
      obtain ⟨hres, hs2⟩ := h
      left
      refine ⟨by rw [← hres], hs2.symm, ?_⟩
      intro q hmem hname htok
      have := List.find?_eq_none.mp hf q ((mem_queryByChannelName s name q).mpr ⟨hmem, hname⟩)
      simp only [decide_eq_true_eq] at this
      exact this htok
    · rw [hf] at h
      have hmem := List.mem_of_find?_eq_some hf
      have htok : rec.token = tok := by
        have := List.find?_some hf
        simpa using this
      have hin := (mem_queryByChannelName s name rec).mp hmem
      have hdel := deleteItem_of_mem s rec hin.1
      simp only [hdel, Option.some.injEq, Prod.mk.injEq] at h
      obtain ⟨hres, hs2⟩ := h
      right
      exact ⟨by rw [← hres], rec, hf, hin.1, hin.2, htok, hs2.symm⟩

/-- The saved record is in the table after PutItem. -/
theorem mem_putItem_self (s : Store) (r : Record) : r ∈ putItem s r := by
  unfold putItem
  split
  · next hany =>
    rcases List.any_eq_true.mp hany with ⟨q, hq, hkey⟩
    simp only [decide_eq_true_eq] at hkey
    exact List.mem_map.mpr ⟨q, hq, by simp [hkey]⟩
  · exact List.mem_append.mpr (Or.inr (List.mem_singleton.mpr rfl))

/-- A value accepted by the retry loop collides with no stored token. -/
theorem generateWithRetryGo_ok_fresh (recs : List Record) (gen : Gen) (t : String) :
    ∀ (n i : Nat), generateWithRetryGo recs gen i n = Except.ok t →
      collidesWith recs t = false := by
  intro n
  induction n with
  | zero =>
    intro i h
    cases h
  | succ n ih =>
    intro i h
    rw [generateWithRetryGo_succ] at h
    cases hgi : gen i with
    | none =>
      simp only [hgi] at h
      cases h
    | some token =>
      simp only [hgi] at h
      by_cases hc : collidesWith recs token = true
      · rw [if_pos hc] at h
        exact ih (i + 1) h
      · rw [if_neg hc] at h
        cases h
        exact Bool.eq_false_iff.mpr hc

/-- The record of each archive event is a scanned row. -/
theorem archivedEvents_record_mem (olds : List Record) (channels : List Channel)
    (e : ArchiveEvent) (he : e ∈ archivedEvents olds channels) : e.record ∈ olds := by
  rcases List.mem_filterMap.mp he with ⟨a, ha, hsome⟩
  rw [archiveEventFor_record channels a e hsome]
  exact ha

/-- Keys of the archived rows are pairwise distinct in a well-formed table. -/
theorem archivedEvents_keys_nodup (olds : List Record) (channels : List Channel)
    (hWF : keysNodup olds) :
    (List.map (fun e => recordKey e.record) (archivedEvents olds channels)).Nodup := by
  have h1 : List.map (fun e => recordKey e.record) (archivedEvents olds channels) =
      List.map recordKey (List.map (fun e => e.record) (archivedEvents olds channels)) := by
    rw [List.map_map]
    rfl
  rw [h1, archivedEvents_map_record]
  exact ((List.filter_sublist olds).map recordKey).nodup hWF

/-- Sample table rows and channels used to instantiate theorems with
hypotheses on concrete inputs. -/
def wRecA : Record :=
  { channelID := "C1", channelName := "general", token := "A", version := 0, createdAt := "t0" }

def wRecB : Record :=
  { channelID := "C1", channelName := "general", token := "B", version := 1, createdAt := "t1" }

def wRecX : Record :=
  { channelID := "C2", channelName := "archived-chan", token := "X", version := 0, createdAt := "t0" }

def wChGeneral : Channel :=
  { id := "C1", name := "general", isArchived := false }

def wChArchived : Channel :=
  { id := "C2", name := "archived-chan", isArchived := true }

/-- C2: VerifyToken returns NotFound exactly when no record is stored
under the channel name; it reports a match exactly when some stored
record under the name carries the given token, independent of record
order, and then carries a matching record's channel id and channel
name; otherwise it returns Unmatch. -/
theorem verifyToken_spec (s : Store) (name tok : String) :
    ((verifyToken s name tok).notFound = true ↔ ∀ q ∈ s, ¬ q.channelName = name) ∧
    (((verifyToken s name tok).notFound = false ∧ (verifyToken s name tok).unmatch = false) ↔
      ∃ q ∈ s, q.channelName = name ∧ q.token = tok) ∧
    (((verifyToken s name tok).notFound = false ∧ (verifyToken s name tok).unmatch = false) →
      ∃ q ∈ s, q.channelName = name ∧ q.token = tok ∧
        (verifyToken s name tok).channelID = q.channelID ∧
        (verifyToken s name tok).channelName = q.channelName) ∧
    ((verifyToken s name tok).unmatch = true ↔
      (∃ q ∈ s, q.channelName = name) ∧
        ∀ q ∈ s, q.channelName = name → ¬ q.token = tok) :=
  ⟨verifyToken_notFound_iff s name tok,
   verifyToken_matched_iff s name tok,
   fun h => verifyToken_matched_fields s name tok h.1 h.2,
   verifyToken_unmatch_iff s name tok⟩

/-- Witness for C2 at a concrete one-record table. -/
theorem verifyToken_spec_witness :
    (verifyToken [wRecA] "general" "A").notFound = false ∧
    (verifyToken [wRecA] "general" "A").unmatch = false :=
  (verifyToken_spec [wRecA] "general" "A").2.1.mpr
    ⟨wRecA, by simp, rfl, rfl⟩

/-- C1 counterexample: with the single record wRecA whose stored
channel id is C1, a call whose caller channel id equals the stored one
deletes the record and does not set ChannelIDUnmatch, and a call whose
caller channel id differs is refused with ChannelIDUnmatch; the claim
states the opposite correlation. -/
theorem revokeRenamedToken_claim_counterexample :
    wRecA.channelID = "C1" ∧
    revokeRenamedToken [wRecA] "C1" "general" "A" =
      some ({ notFound := false, channelIDUnmatch := false, linkedChannelID := "" },
        ([] : Store)) ∧
    revokeRenamedToken [wRecA] "CX" "general" "A" =
      some ({ notFound := false, channelIDUnmatch := true, linkedChannelID := "C1" },
        [wRecA]) := by
  refine ⟨rfl, ?_, ?_⟩ <;> decide

/-- C1 (amended): on the first queried record carrying the given
token, RevokeRenamedToken is refused with ChannelIDUnmatch carrying
the stored channel id and deletes nothing exactly when the caller's
channel id differs from the record's stored channel id, and it deletes
the record exactly when the two channel ids are equal. -/
theorem revokeRenamedToken_spec (s : Store) (cid name tok : String) (rec : Record)
    (hWF : keysNodup s)
    (hf : List.find? (fun r => r.token = tok) (queryByChannelName s name) = some rec) :
    (¬ rec.channelID = cid →
      revokeRenamedToken s cid name tok =
        some ({ notFound := false, channelIDUnmatch := true,
                linkedChannelID := rec.channelID }, s)) ∧
    (rec.channelID = cid →
      ∃ s2, revokeRenamedToken s cid name tok =
          some ({ notFound := false, channelIDUnmatch := false, linkedChannelID := "" }, s2) ∧
        rec ∉ s2 ∧ (∀ q ∈ s, ¬ q = rec → q ∈ s2) ∧ s2.length + 1 = s.length) := by
  have hmem := List.mem_of_find?_eq_some hf
  have hin := (mem_queryByChannelName s name rec).mp hmem
  have hq : ¬ queryByChannelName s name = [] := by
    intro hnil
    rw [hnil] at hf
    cases hf
  constructor
  · intro hne
    simp [revokeRenamedToken, hq, hf, hne]
  · intro heq
    have hdel := deleteItem_of_mem s rec hin.1
    refine ⟨List.filter (fun q => ¬ recordKey q = recordKey rec) s, ?_, ?_, ?_, ?_⟩
    · simp [revokeRenamedToken, hq, hf, heq, hdel]
    · intro hmem2
      have := (List.mem_filter.mp hmem2).2
      simp at this
    · intro q hqs hqne
      apply List.mem_filter.mpr
      refine ⟨hqs, ?_⟩
      simp only [decide_eq_true_eq]
      intro hkey
      have : q ∈ List.filter (fun q => recordKey q = recordKey rec) s :=
        List.mem_filter.mpr ⟨hqs, by simpa using hkey⟩
      rw [filter_key_eq_of_keysNodup s rec hWF hin.1] at this
      exact hqne (List.mem_singleton.mp this)
    · exact length_filter_not_key s rec hWF hin.1

/-- Witness for the amended C1 on a concrete two-record table. -/
theorem revokeRenamedToken_spec_witness :
    ∃ s2, revokeRenamedToken [wRecA, wRecB] "C1" "general" "B" =
        some ({ notFound := false, channelIDUnmatch := false, linkedChannelID := "" }, s2) ∧
      wRecB ∉ s2 ∧ (∀ q ∈ [wRecA, wRecB], ¬ q = wRecB → q ∈ s2) ∧
      s2.length + 1 = ([wRecA, wRecB] : Store).length :=
  (revokeRenamedToken_spec [wRecA, wRecB] "C1" "general" "B" wRecB
    (by decide) (by decide)).2 rfl

/-- Constant generator used in witnesses. -/
def wGen : Gen := fun _ => some "w"

/-- Generator that always produces the token A, used to force collisions. -/
def wGenA : Gen := fun _ => some "A"

/-- C3: for a channel name with zero stored records,
GenerateAndSaveToken creates exactly one record, with version 0, and
returns its token with IsGenerated true; calling it again for the same
name returns the same token with IsGenerated false and performs no
store write. -/
theorem generateAndSaveToken_spec (gen gen2 : Gen) (s : Store) (cid name now now2 tok : String)
    (hfresh : ∀ q ∈ s, ¬ q.channelName = name) (hgen : gen 0 = some tok) :
    generateAndSaveToken gen s cid name now =
      some ({ isGenerated := true, token := tok },
        putItem s { channelID := cid, channelName := name, token := tok,
                    version := 0, createdAt := now }) ∧
    putItem s { channelID := cid, channelName := name, token := tok,
                version := 0, createdAt := now } =
      s ++ [{ channelID := cid, channelName := name, token := tok,
              version := 0, createdAt := now }] ∧
    countByName (putItem s { channelID := cid, channelName := name, token := tok,
                             version := 0, createdAt := now }) name = 1 ∧
    generateAndSaveToken gen2
        (putItem s { channelID := cid, channelName := name, token := tok,
                     version := 0, createdAt := now }) cid name now2 =
      some ({ isGenerated := false, token := tok },
        putItem s { channelID := cid, channelName := name, token := tok,
                    version := 0, createdAt := now }) := by
  have hq : queryByChannelName s name = [] := (queryByChannelName_eq_nil s name).mpr hfresh
  have hfil : List.filter (fun r => r.channelName = name) s = [] := by
    rw [List.filter_eq_nil_iff]
    intro a ha
    simpa using hfresh a ha
  have hkf : ∀ q ∈ s, ¬ recordKey q =
      recordKey { channelID := cid, channelName := name, token := tok,
                  version := 0, createdAt := now } := by
    intro q hqs hkey
    simp only [recordKey, Prod.mk.injEq] at hkey
    exact hfresh q hqs hkey.1
  have happ := putItem_of_key_fresh s
    { channelID := cid, channelName := name, token := tok,
      version := 0, createdAt := now } hkf
  have hquery2 : queryByChannelName
      (putItem s { channelID := cid, channelName := name, token := tok,
                   version := 0, createdAt := now }) name =
      [{ channelID := cid, channelName := name, token := tok,
         version := 0, createdAt := now }] := by
    rw [happ]
    simp [queryByChannelName, List.filter_append, hfil, sortByVersion, insertSorted]
  refine ⟨?_, happ, ?_, ?_⟩
  · simp [generateAndSaveToken, hq, hgen]
  · rw [happ, countByName_append_single]
    simp only [if_pos rfl]
    simp [countByName, hfil]
  · simp [generateAndSaveToken, hquery2]

/-- Witness for C3 on the empty table. -/
theorem generateAndSaveToken_spec_witness :
    generateAndSaveToken wGen [] "C1" "general" "t0" =
      some ({ isGenerated := true, token := "w" },
        putItem [] { channelID := "C1", channelName := "general", token := "w",
                     version := 0, createdAt := "t0" }) ∧
    generateAndSaveToken wGen
        (putItem [] { channelID := "C1", channelName := "general", token := "w",
                      version := 0, createdAt := "t0" }) "C1" "general" "t9" =
      some ({ isGenerated := false, token := "w" },
        putItem [] { channelID := "C1", channelName := "general", token := "w",
                     version := 0, createdAt := "t0" }) :=
  have h := generateAndSaveToken_spec wGen wGen [] "C1" "general" "t0" "t9" "w"
    (by simp) rfl
  ⟨h.1, h.2.2.2⟩

/-- C4: RegenerateToken returns NoTokenFound and writes nothing when
no record exists for the name, returns TooManyToken and writes nothing
when two or more exist, and with exactly one existing record persists
a new record with version one above the existing maximum and a token
different from every stored token for the name, returning that
token. -/
theorem regenerateToken_spec (gen : Gen) (s : Store) (cid name now : String) :
    (queryByChannelName s name = [] →
      regenerateToken gen s cid name now = some ({ noTokenFound := true }, s)) ∧
    (∀ r1 r2 rest, queryByChannelName s name = r1 :: r2 :: rest →
      regenerateToken gen s cid name now = some ({ tooManyToken := true }, s)) ∧
    (∀ rec tok, queryByChannelName s name = [rec] →
      generateWithRetry [rec] gen = Except.ok tok →
      regenerateToken gen s cid name now =
        some ({ token := tok },
          putItem s { channelID := cid, channelName := name, token := tok,
                      version := rec.version + 1, createdAt := now }) ∧
      ¬ tok = rec.token ∧
      (∀ q ∈ s, q.channelName = name → q = rec) ∧
      { channelID := cid, channelName := name, token := tok,
        version := rec.version + 1, createdAt := now } ∈
        putItem s { channelID := cid, channelName := name, token := tok,
                    version := rec.version + 1, createdAt := now } ∧
      (∀ q ∈ s, q.channelName = name → ¬ tok = q.token)) := by
  refine ⟨?_, ?_, ?_⟩
  · intro hq
    simp [regenerateToken, hq]
  · intro r1 r2 rest hq
    have hlen : maxTokenCount ≤ (r1 :: r2 :: rest).length := by
      simp only [List.length_cons, maxTokenCount]
      omega
    simp only [regenerateToken, hq]
    rw [if_pos hlen]
  · intro rec tok hq hok
    have hlen : ¬ maxTokenCount ≤ ([rec] : List Record).length := by
      simp [maxTokenCount]
    have huniq : ∀ q ∈ s, q.channelName = name → q = rec := by
      intro q hqs hname
      have : q ∈ queryByChannelName s name := (mem_queryByChannelName s name q).mpr ⟨hqs, hname⟩
      rw [hq] at this
      exact List.mem_singleton.mp this
    have hfreshTok : collidesWith [rec] tok = false :=
      generateWithRetryGo_ok_fresh [rec] gen tok 4 0 hok
    have hne : ¬ tok = rec.token := by
      simpa [collidesWith] using hfreshTok
    refine ⟨?_, hne, huniq, mem_putItem_self s _, ?_⟩
    · simp only [regenerateToken, hq]
      rw [if_neg hlen]
      simp [hok]
    · intro q hqs hname
      rw [huniq q hqs hname]
      exact hne

/-- Witness for C4 on a one-record table. -/
theorem regenerateToken_spec_witness :
    regenerateToken wGen [wRecA] "C1" "general" "t1" =
      some ({ token := "w" },
        putItem [wRecA] { channelID := "C1", channelName := "general", token := "w",
                          version := wRecA.version + 1, createdAt := "t1" }) ∧
    ¬ "w" = wRecA.token :=
  have h := (regenerateToken_spec wGen [wRecA] "C1" "general" "t1").2.2 wRecA "w"
    (by decide) rfl
  ⟨h.1, h.2.1⟩

/-- The table after RevokeRenamedToken is unchanged or has exactly the
rows of one stored record's key removed. -/
theorem revokeRenamedToken_store_cases (s : Store) (cid name tok : String)
    (res : RevokeRenamedResult) (s2 : Store)
    (h : revokeRenamedToken s cid name tok = some (res, s2)) :
    s2 = s ∨ ∃ rec, rec ∈ s ∧
      s2 = List.filter (fun q => ¬ recordKey q = recordKey rec) s := by
  unfold revokeRenamedToken at h
  by_cases hq : queryByChannelName s name = []
  · rw [if_pos hq] at h
    simp only [Option.some.injEq, Prod.mk.injEq] at h
    exact Or.inl h.2.symm
  · rw [if_neg hq] at h
    rcases hf : List.find? (fun r => r.token = tok) (queryByChannelName s name) with _ | rec
    · rw [hf] at h
      simp only [Option.some.injEq, Prod.mk.injEq] at h
      exact Or.inl h.2.symm
    · rw [hf] at h
      have hin := (mem_queryByChannelName s name rec).mp (List.mem_of_find?_eq_some hf)
      by_cases hcid : rec.channelID = cid
      · have hdel := deleteItem_of_mem s rec hin.1
        simp only [hcid, not_true_eq_false, if_false, hdel, Option.some.injEq,
          Prod.mk.injEq] at h
        exact Or.inr ⟨rec, hin.1, h.2.symm⟩
      · simp only [hcid, not_false_eq_true, if_true, Option.some.injEq,
          Prod.mk.injEq] at h
        exact Or.inl h.2.symm

/-- C5: every token lifecycle operation preserves the bound of at most
two stored records per channel name. -/
theorem tokenOps_preserve_cap (gen : Gen) (s : Store) (cid name now tok : String)
    (hInv : ∀ n, countByName s n ≤ 2) :
    (∀ r s2, generateAndSaveToken gen s cid name now = some (r, s2) →
      ∀ n, countByName s2 n ≤ 2) ∧
    (∀ r s2, regenerateToken gen s cid name now = some (r, s2) →
      ∀ n, countByName s2 n ≤ 2) ∧
    (∀ r s2, revokeToken s name tok = some (r, s2) → ∀ n, countByName s2 n ≤ 2) ∧
    (∀ r s2, revokeRenamedToken s cid name tok = some (r, s2) →
      ∀ n, countByName s2 n ≤ 2) := by
  refine ⟨?_, ?_, ?_, ?_⟩
  · intro r s2 h n
    rcases hquery : queryByChannelName s name with _ | ⟨rec, rest⟩
    · simp only [generateAndSaveToken, hquery] at h
      cases hg : gen 0 with
      | none =>
        simp only [hg] at h
        cases h
      | some t =>
        simp only [hg, Option.some.injEq, Prod.mk.injEq] at h
        obtain ⟨hr, hs2⟩ := h
        have hnone := (queryByChannelName_eq_nil s name).mp hquery
        have hkf : ∀ q ∈ s, ¬ recordKey q =
            recordKey { channelID := cid, channelName := name, token := t,
                        version := 0, createdAt := now } := by
          intro q hqs hkey
          simp only [recordKey, Prod.mk.injEq] at hkey
          exact hnone q hqs hkey.1
        have h0 : countByName s name = 0 := by
          rw [← length_queryByChannelName, hquery]
          rfl
        rw [← hs2, putItem_of_key_fresh s _ hkf, countByName_append_single]
        by_cases hn : name = n
        · have hc : countByName s n = 0 := hn ▸ h0
          rw [if_pos hn]
          omega
        · rw [if_neg hn]
          have := hInv n
          omega
    · simp only [generateAndSaveToken, hquery, Option.some.injEq, Prod.mk.injEq] at h
      obtain ⟨hr, hs2⟩ := h
      rw [← hs2]
      exact hInv n
  · intro r s2 h n
    rcases hquery : queryByChannelName s name with _ | ⟨rec, rest⟩
    · simp only [regenerateToken, hquery, Option.some.injEq, Prod.mk.injEq] at h
      obtain ⟨hr, hs2⟩ := h
      rw [← hs2]
      exact hInv n
    · rcases rest with _ | ⟨rec2, rest2⟩
      · have hlen : ¬ maxTokenCount ≤ ([rec] : List Record).length := by
          simp [maxTokenCount]
        simp only [regenerateToken, hquery] at h
        rw [if_neg hlen] at h
        cases hg : generateWithRetry [rec] gen with
        | error e =>
          simp only [hg] at h
          cases h
        | ok t =>
          simp only [hg, Option.some.injEq, Prod.mk.injEq] at h
          obtain ⟨hr, hs2⟩ := h
          have hkf : ∀ q ∈ s, ¬ recordKey q =
              recordKey { channelID := cid, channelName := name, token := t,
                          version := rec.version + 1, createdAt := now } := by
            intro q hqs hkey
            simp only [recordKey, Prod.mk.injEq] at hkey
            have hq2 : q ∈ queryByChannelName s name :=
              (mem_queryByChannelName s name q).mpr ⟨hqs, hkey.1⟩
            rw [hquery] at hq2
            have hqrec : q = rec := List.mem_singleton.mp hq2
            have : q.version = rec.version + 1 := hkey.2
            rw [hqrec] at this
            omega
          have h1 : countByName s name = 1 := by
            rw [← length_queryByChannelName, hquery]
            rfl
          rw [← hs2, putItem_of_key_fresh s _ hkf, countByName_append_single]
          by_cases hn : name = n
          · have hc : countByName s n = 1 := hn ▸ h1
            rw [if_pos hn]
            omega
          · rw [if_neg hn]
            have := hInv n
            omega
      · have hlen : maxTokenCount ≤ (rec :: rec2 :: rest2).length := by
          simp only [List.length_cons, maxTokenCount]
          omega
        simp only [regenerateToken, hquery] at h
        rw [if_pos hlen] at h
        simp only [Option.some.injEq, Prod.mk.injEq] at h
        obtain ⟨hr, hs2⟩ := h
        rw [← hs2]
        exact hInv n
  · intro r s2 h n
    rcases revokeToken_cases s name tok r s2 h with ⟨_, hs2, _⟩ | ⟨_, rec, _, _, _, _, hs2⟩
    · rw [hs2]
      exact hInv n
    · rw [hs2]
      exact le_trans (countByName_filter_le s _ n) (hInv n)
  · intro r s2 h n
    rcases revokeRenamedToken_store_cases s cid name tok r s2 h with hs2 | ⟨rec, hmem, hs2⟩
    · rw [hs2]
      exact hInv n
    · rw [hs2]
      exact le_trans (countByName_filter_le s _ n) (hInv n)

/-- Witness for C5 after one generate call on the empty table. -/
theorem tokenOps_preserve_cap_witness :
    countByName [{ channelID := "C1", channelName := "general", token := "w",
                   version := 0, createdAt := "t0" }] "general" ≤ 2 :=
  (tokenOps_preserve_cap wGen [] "C1" "general" "t0" "A"
      (fun n => by simp [countByName])).1
    { isGenerated := true, token := "w" }
    [{ channelID := "C1", channelName := "general", token := "w",
       version := 0, createdAt := "t0" }]
    (by decide) "general"

/-- C6: token generation makes at most 4 attempts in total (the
result depends only on the first 4 generator calls); under a total
generator it returns the first produced value that differs from every
stored token of the group, with all earlier attempts colliding; and it
fails exactly when all 4 attempts collide, with the exhaustion
error. -/
theorem generateWithRetry_spec (recs : List Record) (gen : Gen) (f : Nat → String)
    (hgen : ∀ i, i < 4 → gen i = some (f i)) :
    (∀ gen2, (∀ i, i < 4 → gen2 i = gen i) →
      generateWithRetry recs gen2 = generateWithRetry recs gen) ∧
    (∀ t, generateWithRetry recs gen = Except.ok t ↔
      ∃ i, i < 4 ∧ t = f i ∧ collidesWith recs (f i) = false ∧
        ∀ j, j < i → collidesWith recs (f j) = true) ∧
    (∀ e, generateWithRetry recs gen = Except.error e ↔
      e = GenError.exhausted ∧ ∀ i, i < 4 → collidesWith recs (f i) = true) := by
  refine ⟨?_, ?_, ?_⟩
  · intro gen2 h
    exact generateWithRetryGo_congr recs 4 0 gen gen2 (fun k hk => by simpa using h k hk)
  · intro t
    have := generateWithRetryGo_ok_iff recs gen f 4 0
      (fun k hk => by simpa using hgen k hk) t
    simpa using this
  · intro e
    have := generateWithRetryGo_error_iff recs gen f 4 0
      (fun k hk => by simpa using hgen k hk) e
    simpa using this

/-- Witness for C6: a generator that always returns the stored token A
exhausts the 4-attempt budget. -/
theorem generateWithRetry_spec_witness :
    generateWithRetry [wRecA] wGenA = Except.error GenError.exhausted :=
  ((generateWithRetry_spec [wRecA] wGenA (fun _ => "A")
      (fun i hi => rfl)).2.2 GenError.exhausted).mpr
    ⟨rfl, fun i hi => by decide⟩

/-- C7: on a table whose token values are unique within each channel
name group, a completed RevokeToken call followed by VerifyToken for
the same name and token never reports a match. -/
theorem revoke_then_verify_spec (s : Store) (name tok : String) (res : RevokeResult)
    (s2 : Store)
    (hUniq : ∀ q1 ∈ s, ∀ q2 ∈ s, q1.channelName = q2.channelName →
      q1.token = q2.token → q1 = q2)
    (h : revokeToken s name tok = some (res, s2)) :
    (verifyToken s2 name tok).notFound = true ∨ (verifyToken s2 name tok).unmatch = true := by
  have hnomatch : ¬ ∃ q ∈ s2, q.channelName = name ∧ q.token = tok := by
    rcases revokeToken_cases s name tok res s2 h with ⟨_, hs2, hnone⟩ |
      ⟨_, rec, hf, hrecs, hrecname, hrectok, hs2⟩
    · rintro ⟨q, hq, hname, htok⟩
      rw [hs2] at hq
      exact hnone q hq hname htok
    · rintro ⟨q, hq, hname, htok⟩
      rw [hs2] at hq
      have hqs := (List.mem_filter.mp hq).1
      have hqkey := (List.mem_filter.mp hq).2
      have hqrec : q = rec := hUniq q hqs rec hrecs (by rw [hname, hrecname])
        (by rw [htok, hrectok])
      rw [hqrec] at hqkey
      simp at hqkey
  by_cases hnf : (verifyToken s2 name tok).notFound = true
  · exact Or.inl hnf
  · by_cases hum : (verifyToken s2 name tok).unmatch = true
    · exact Or.inr hum
    · exfalso
      apply hnomatch
      exact (verifyToken_matched_iff s2 name tok).mp
        ⟨Bool.eq_false_iff.mpr hnf, Bool.eq_false_iff.mpr hum⟩

/-- Witness for C7: revoking token A from a two-token table makes a
following verify of A report no match. -/
theorem revoke_then_verify_spec_witness :
    (verifyToken [wRecB] "general" "A").notFound = true ∨
    (verifyToken [wRecB] "general" "A").unmatch = true :=
  revoke_then_verify_spec [wRecA, wRecB] "general" "A" { notFound := false } [wRecB]
    (by decide) (by decide)

/-- C10: a completed RevokeToken call deletes at most one row: with
NotFound the table is unchanged, and on success exactly the first
query hit carrying the token is removed while every other row stays. -/
theorem revokeToken_frame_spec (s : Store) (name tok : String) (res : RevokeResult)
    (s2 : Store) (hWF : keysNodup s) (h : revokeToken s name tok = some (res, s2)) :
    (res.notFound = true → s2 = s) ∧
    (res.notFound = false →
      ∃ rec, List.find? (fun r => r.token = tok) (queryByChannelName s name) = some rec ∧
        rec ∈ s ∧ rec ∉ s2 ∧ (∀ q ∈ s, ¬ q = rec → q ∈ s2) ∧ (∀ q ∈ s2, q ∈ s) ∧
        s2.length + 1 = s.length) := by
  rcases revokeToken_cases s name tok res s2 h with ⟨hres, hs2, _⟩ |
    ⟨hres, rec, hf, hrecs, hrecname, hrectok, hs2⟩
  · constructor
    · intro _
      exact hs2
    · intro hcontra
      rw [hres] at hcontra
      cases hcontra
  · constructor
    · intro hcontra
      rw [hres] at hcontra
      cases hcontra
    · intro _
      refine ⟨rec, hf, hrecs, ?_, ?_, ?_, ?_⟩
      · intro hmem
        rw [hs2] at hmem
        have := (List.mem_filter.mp hmem).2
        simp at this
      · intro q hqs hqne
        rw [hs2]
        apply List.mem_filter.mpr
        refine ⟨hqs, ?_⟩
        simp only [decide_eq_true_eq]
        intro hkey
        have hq2 : q ∈ List.filter (fun q => recordKey q = recordKey rec) s :=
          List.mem_filter.mpr ⟨hqs, by simpa using hkey⟩
        rw [filter_key_eq_of_keysNodup s rec hWF hrecs] at hq2
        exact hqne (List.mem_singleton.mp hq2)
      · intro q hq
        rw [hs2] at hq
        exact (List.mem_filter.mp hq).1
      · rw [hs2]
        exact length_filter_not_key s rec hWF hrecs

/-- Witness for C10: revoking token A from a two-row table with a
duplicate-token row deletes only the first query hit. -/
theorem revokeToken_frame_spec_witness :
    ∃ rec, List.find? (fun r => r.token = "A")
        (queryByChannelName [wRecA, wRecB] "general") = some rec ∧
      rec ∈ [wRecA, wRecB] ∧ rec ∉ [wRecB] ∧
      (∀ q ∈ [wRecA, wRecB], ¬ q = rec → q ∈ [wRecB]) ∧
      (∀ q ∈ [wRecB], q ∈ [wRecA, wRecB]) ∧
      ([wRecB] : Store).length + 1 = ([wRecA, wRecB] : Store).length :=
  (revokeToken_frame_spec [wRecA, wRecB] "general" "A" { notFound := false } [wRecB]
    (by decide) (by decide)).2 rfl

/-- C8: in a batch pass over a well-formed table and a listing with
pairwise distinct channel ids, every stored record whose channel id is
listed as archived produces exactly one archive ops notification, is
deleted from the table, is excluded from the surviving records, and
every migration binding and rename event of the same pass arises from
a surviving record, hence not from it. -/
theorem batch_archived_spec (olds : List Record) (channels : List Channel) (rec : Record)
    (c : Channel) (hWF : keysNodup olds) (hIds : (List.map Channel.id channels).Nodup)
    (hrec : rec ∈ olds) (hc : c ∈ channels) (hid : c.id = rec.channelID)
    (harch : c.isArchived = true) :
    ∃ br, runBatch olds channels = some br ∧
      (List.map (fun e => e.record) br.archiveOps).count rec = 1 ∧
      rec ∉ br.store ∧
      rec ∉ survivors olds channels ∧
      (∀ p ∈ br.migrationNotifs, p.2 ∈ survivors olds channels ∧ ¬ p.2 = rec) ∧
      (∀ ev ∈ br.renameNotifs, ∃ r, r ∈ survivors olds channels ∧ ¬ r = rec ∧
        ∃ ch ∈ channels, r.channelID = ch.id ∧ ¬ r.channelName = ch.name ∧
          ev = { channelID := r.channelID, oldName := r.channelName,
                 newName := ch.name, savedToken := r.token }) := by
  have hev : archiveEventFor channels rec =
      some { record := rec, slackChannelName := c.name } :=
    archiveEventFor_of_archived channels rec c hIds hc hid harch
  have harchRec : isArchivedRec channels rec = true := by
    simp [isArchivedRec, hev]
  have hnot : rec ∉ survivors olds channels := by
    intro hmem
    have h2 := (List.mem_filter.mp hmem).2
    simp [harchRec] at h2
  have hmemE : ∀ e ∈ archivedEvents olds channels, e.record ∈ olds :=
    fun e he => archivedEvents_record_mem olds channels e he
  have hkeysE := archivedEvents_keys_nodup olds channels hWF
  have hdel := deleteAll_eq (archivedEvents olds channels) olds hWF hmemE hkeysE
  refine ⟨_, runBatch_eq olds channels _ hdel, ?_, ?_, hnot, ?_, ?_⟩
  · show (List.map (fun e => e.record) (archivedEvents olds channels)).count rec = 1
    rw [archivedEvents_map_record]
    have hnodup : (List.filter (fun r => isArchivedRec channels r) olds).Nodup :=
      (List.Nodup.of_map recordKey hWF).filter _
    have hmem2 : rec ∈ List.filter (fun r => isArchivedRec channels r) olds :=
      List.mem_filter.mpr ⟨hrec, by simpa using harchRec⟩
    exact List.count_eq_one_of_mem hnodup hmem2
  · show rec ∉ List.filter
      (fun q => ¬ List.any (archivedEvents olds channels)
        (fun e => recordKey e.record = recordKey q)) olds
    intro hmem
    have h2 := (List.mem_filter.mp hmem).2
    simp only [decide_eq_true_eq] at h2
    apply h2
    apply List.any_eq_true.mpr
    refine ⟨{ record := rec, slackChannelName := c.name }, ?_, by simp⟩
    exact List.mem_filterMap.mpr ⟨rec, hrec, hev⟩
  · intro p hp
    rcases migrationsOf_mem (survivors olds channels) p hp with ⟨r, hr, rfl⟩
    exact ⟨hr, fun heq => hnot (heq ▸ hr)⟩
  · intro ev hev2
    rcases (renamesOf_mem (survivors olds channels) channels ev).mp hev2 with
      ⟨r, hr, ch, hch, h1, h2, h3⟩
    exact ⟨r, hr, fun heq => hnot (heq ▸ hr), ch, hch, h1, h2, h3⟩

/-- Witness for C8 on a one-record table whose channel is archived. -/
theorem batch_archived_spec_witness :
    ∃ br, runBatch [wRecX] [wChArchived] = some br ∧ wRecX ∉ br.store ∧
      wRecX ∉ survivors [wRecX] [wChArchived] := by
  obtain ⟨br, h1, h2, h3, h4, h5, h6⟩ :=
    batch_archived_spec [wRecX] [wChArchived] wRecX wChArchived
      (by decide) (by decide) (by decide) (by decide) (by decide) (by decide)
  exact ⟨br, h1, h3, h4⟩

/-- C9: in a successful batch pass the migrations map binds each
channel name at most once, and a channel name is bound (sending
exactly one channel-and-ops notification pair) exactly when two
surviving records share that name and a channel id but differ in
token. -/
theorem batch_migration_spec (olds : List Record) (channels : List Channel)
    (br : BatchResult) (h : runBatch olds channels = some br) :
    (List.map Prod.fst br.migrationNotifs).Nodup ∧
    ∀ name, (∃ p ∈ br.migrationNotifs, p.1 = name) ↔
      ∃ r ∈ survivors olds channels, ∃ o ∈ survivors olds channels,
        r.channelName = name ∧ o.channelName = name ∧ r.channelID = o.channelID ∧
        ¬ r.token = o.token := by
  have hmig : br.migrationNotifs = migrationsOf (survivors olds channels) := by
    unfold runBatch at h
    cases hd : deleteAll olds (archivedEvents olds channels) with
    | none =>
      simp only [hd] at h
      cases h
    | some st =>
      simp only [hd, Option.some.injEq] at h
      rw [← h]
  constructor
  · rw [hmig]
    exact migrationsOf_keys_nodup _
  · intro name
    rw [hmig, migrationsOf_key_mem]
    constructor
    · rintro ⟨r, hr, hname, o, ho, hcond⟩
      rcases hcond with ⟨hcid, hcname, hctok⟩
      exact ⟨r, hr, o, ho, hname.symm, by rw [← hcname, ← hname], hcid, hctok⟩
    · rintro ⟨r, hr, o, ho, h1, h2, h3, h4⟩
      exact ⟨r, hr, h1.symm, o, ho, h3, by rw [h1, h2], h4⟩

/-- Batch outcome of the C9 witness run. -/
def wBatchResult : BatchResult :=
  { archiveOps := [], migrationNotifs := [("general", wRecB)],
    renameNotifs := [], store := [wRecA, wRecB] }

/-- Witness for C9 on two records sharing name and channel id with
different tokens. -/
theorem batch_migration_spec_witness :
    (List.map Prod.fst wBatchResult.migrationNotifs).Nodup ∧
    (∃ p ∈ wBatchResult.migrationNotifs, p.1 = "general") := by
  have h := batch_migration_spec [wRecA, wRecB] [wChGeneral] wBatchResult (by decide)
  exact ⟨h.1, (h.2 "general").mpr
    ⟨wRecA, by decide, wRecB, by decide, by decide, by decide, by decide, by decide⟩⟩

end Belldog
